import Mathlib

/-!
Verification development for `rebranding/apply-branding.ts`, the branding script
of this repository.  The script applies a `BrandingConfig` to four targets:

1. the package manifest (`src/package.json`): two ordered global text
   replacements (`"kilo-code"` → `name`, then `"kilocode"` → `publisher`,
   lines 50-56), then a structured field overwrite (lines 61-73);
2. the localization map (`src/package.nls.json`): seven fixed keys overwritten
   (lines 91-97);
3. the icon mapping: per-pair path resolution with a two-tier fallback and a
   non-fatal warning on a missing source (lines 112-137);
4. every `*.json` file of the `en` locale directory: three ordered literal
   replacements (`"Kilo Code"` → shortName, `"Kilo"` → shortName,
   `"Kilocode"` → displayName, lines 159-171).

Text is modelled as `List Char` (`String.data`) wherever character-level
reasoning is needed.  The script's `replaceAll` helper is
`str.split(find).join(replace)` (lines 44-46 and 152-154), i.e. greedy
left-to-right non-overlapping replacement of every occurrence of `find`; every
pattern the script passes is a fixed non-empty literal, for which the
definition below is the exact semantics.
-/

namespace Rebranding

/-- Boolean test that `find` occurs at the very start of `s`. -/
def isPrefixSeq : List Char → List Char → Bool
  | [], _ => true
  | _ :: _, [] => false
  | a :: as, b :: bs => a == b && isPrefixSeq as bs

/-- Boolean test that `find` occurs somewhere in `s` (as a contiguous run). -/
def containsSeq (find : List Char) : List Char → Bool
  | [] => find.isEmpty
  | c :: cs => isPrefixSeq find (c :: cs) || containsSeq find cs

/-- Fuel-indexed worker for `replaceAll`; the fuel only makes the recursion
structural, `replaceAll` always supplies enough of it. -/
def goReplace (find rep : List Char) : Nat → List Char → List Char
  | 0, s => s
  | _ + 1, [] => []
  | n + 1, c :: cs =>
    if isPrefixSeq find (c :: cs) && !find.isEmpty then
      rep ++ goReplace find rep n (List.drop find.length (c :: cs))
    else
      c :: goReplace find rep n cs

/-- `str.split(find).join(rep)` of the script (lines 44-46, 152-154): replace
every occurrence of `find` in `s` by `rep`, scanning left to right, greedily
and without overlap. -/
def replaceAll (find rep s : List Char) : List Char :=
  goReplace find rep s.length s

theorem goReplace_congr (find rep : List Char) :
    ∀ n m s, s.length ≤ n → s.length ≤ m →
      goReplace find rep n s = goReplace find rep m s := by
  intro n
  induction n with
  | zero =>
    intro m s hn _hm
    have hs : s = [] := List.length_eq_zero.mp (Nat.le_zero.mp hn)
    subst hs
    cases m <;> rfl
  | succ n ih =>
    intro m s hn hm
    cases s with
    | nil => cases m <;> rfl
    | cons c cs =>
      cases m with
      | zero => simp at hm
      | succ m =>
        simp only [goReplace]
        have hlen : cs.length ≤ n ∧ cs.length ≤ m := by
          simp only [List.length_cons] at hn hm
          omega
        by_cases h : (isPrefixSeq find (c :: cs) && !find.isEmpty) = true
        · rw [if_pos h, if_pos h]
          have hfind : 1 ≤ find.length := by
            cases find with
            | nil => simp [List.isEmpty] at h
            | cons _ _ => simp
          have hdrop : (List.drop find.length (c :: cs)).length ≤ n ∧
              (List.drop find.length (c :: cs)).length ≤ m := by
            simp only [List.length_drop, List.length_cons]
            omega
          rw [ih m (List.drop find.length (c :: cs)) hdrop.1 hdrop.2]
        · rw [if_neg h, if_neg h]
          rw [ih m cs hlen.1 hlen.2]

theorem replaceAll_nil (find rep : List Char) : replaceAll find rep [] = [] := rfl

theorem replaceAll_cons_pos (find rep : List Char) (c : Char) (cs : List Char)
    (h : isPrefixSeq find (c :: cs) = true) (hf : find ≠ []) :
    replaceAll find rep (c :: cs) =
      rep ++ replaceAll find rep (List.drop find.length (c :: cs)) := by
  have hcond : (isPrefixSeq find (c :: cs) && !find.isEmpty) = true := by
    cases find with
    | nil => exact absurd rfl hf
    | cons a as => simp [h, List.isEmpty]
  have hfind : 1 ≤ find.length := by
    cases find with
    | nil => exact absurd rfl hf
    | cons a as => simp
  show goReplace find rep (cs.length + 1) (c :: cs) = _
  simp only [goReplace, if_pos hcond]
  congr 1
  apply goReplace_congr
  · simp only [List.length_drop, List.length_cons]
    omega
  · exact Nat.le_refl _

theorem replaceAll_cons_neg (find rep : List Char) (c : Char) (cs : List Char)
    (h : isPrefixSeq find (c :: cs) = false) :
    replaceAll find rep (c :: cs) = c :: replaceAll find rep cs := by
  show goReplace find rep (cs.length + 1) (c :: cs) = _
  simp only [goReplace, h, Bool.false_and, if_neg]
  rfl

theorem isPrefixSeq_iff_append (find s : List Char) :
    isPrefixSeq find s = true ↔ ∃ t, s = find ++ t := by
  induction find generalizing s with
  | nil =>
    simp only [isPrefixSeq, List.nil_append, true_iff]
    exact ⟨s, rfl⟩
  | cons a as ih =>
    cases s with
    | nil =>
      simp [isPrefixSeq]
    | cons b bs =>
      simp only [isPrefixSeq, Bool.and_eq_true, beq_iff_eq, ih, List.cons_append,
        List.cons.injEq]
      constructor
      · rintro ⟨rfl, t, rfl⟩
        exact ⟨t, rfl, rfl⟩
      · rintro ⟨t, rfl, rfl⟩
        exact ⟨rfl, t, rfl⟩

theorem isPrefixSeq_append_self (find t : List Char) :
    isPrefixSeq find (find ++ t) = true :=
  (isPrefixSeq_iff_append find (find ++ t)).mpr ⟨t, rfl⟩

theorem isPrefixSeq_trans {f g s : List Char} (h1 : isPrefixSeq f g = true)
    (h2 : isPrefixSeq g s = true) : isPrefixSeq f s = true := by
  obtain ⟨t1, rfl⟩ := (isPrefixSeq_iff_append f g).mp h1
  obtain ⟨t2, rfl⟩ := (isPrefixSeq_iff_append _ _).mp h2
  exact (isPrefixSeq_iff_append _ _).mpr ⟨t1 ++ t2, by simp⟩

theorem isPrefixSeq_extend {f s : List Char} (t : List Char)
    (h : isPrefixSeq f s = true) : isPrefixSeq f (s ++ t) = true := by
  obtain ⟨u, rfl⟩ := (isPrefixSeq_iff_append f s).mp h
  exact (isPrefixSeq_iff_append _ _).mpr ⟨u ++ t, by simp⟩

theorem isPrefixSeq_append_left {f p x : List Char}
    (h : isPrefixSeq f (p ++ x) = true) (hl : f.length ≤ p.length) :
    isPrefixSeq f p = true := by
  induction f generalizing p with
  | nil => rfl
  | cons a as ih =>
    cases p with
    | nil => simp at hl
    | cons b bs =>
      simp only [List.cons_append, isPrefixSeq, Bool.and_eq_true] at h ⊢
      exact ⟨h.1, ih h.2 (by simpa using hl)⟩

theorem containsSeq_nil_of_ne {find : List Char} (hf : find ≠ []) :
    containsSeq find [] = false := by
  cases find with
  | nil => exact absurd rfl hf
  | cons a as => rfl

theorem replaceAll_of_not_contains (find rep : List Char) :
    ∀ s, containsSeq find s = false → replaceAll find rep s = s := by
  intro s
  induction s with
  | nil => intro _; rfl
  | cons c cs ih =>
    intro h
    simp only [containsSeq, Bool.or_eq_false_iff] at h
    rw [replaceAll_cons_neg find rep c cs h.1, ih h.2]

/-- The scan of `replaceAll` around its first match: a text containing the
pattern splits as `p ++ find ++ q` with the output `p ++ rep ++` (the processed
tail). -/
theorem replaceAll_decompose (find rep : List Char) (hf : find ≠ []) :
    ∀ s, containsSeq find s = true →
      ∃ p q, s = p ++ find ++ q ∧
        replaceAll find rep s = p ++ rep ++ replaceAll find rep q := by
  intro s
  induction s with
  | nil =>
    intro h
    rw [containsSeq_nil_of_ne hf] at h
    exact absurd h (by simp)
  | cons c cs ih =>
    intro h
    by_cases hp : isPrefixSeq find (c :: cs) = true
    · obtain ⟨t, ht⟩ := (isPrefixSeq_iff_append _ _).mp hp
      refine ⟨[], t, by simpa using ht, ?_⟩
      rw [replaceAll_cons_pos find rep c cs hp hf, ht]
      simp [List.drop_left]
    · have hcs : containsSeq find cs = true := by
        simp only [containsSeq, Bool.or_eq_true] at h
        rcases h with h | h
        · exact absurd h hp
        · exact h
      obtain ⟨p, q, hs, hr⟩ := ih hcs
      refine ⟨c :: p, q, by simp [hs], ?_⟩
      rw [replaceAll_cons_neg find rep c cs (Bool.not_eq_true _ ▸ hp), hr]
      simp

/-- No occurrence of `find` can begin inside `rep` when `rep` shares no
character with `find`. -/
theorem containsSeq_rep_append {find rep : List Char} (hf : find ≠ [])
    (hd : ∀ a ∈ rep, a ∉ find) {R : List Char} (hR : containsSeq find R = false) :
    containsSeq find (rep ++ R) = false := by
  induction rep with
  | nil => simpa
  | cons r rs ih =>
    simp only [List.cons_append, containsSeq, Bool.or_eq_false_iff]
    refine ⟨?_, ih (fun a ha => hd a (List.mem_cons_of_mem _ ha))⟩
    cases find with
    | nil => exact absurd rfl hf
    | cons f fs =>
      simp only [isPrefixSeq, Bool.and_eq_false_iff]
      left
      have hr : r ∉ f :: fs := hd r (List.mem_cons_self _ _)
      simp only [beq_eq_false_iff_ne, ne_eq]
      intro hfr
      exact hr (hfr ▸ List.mem_cons_self _ _)

theorem containsSeq_replaceAll_aux {find rep : List Char} (hf : find ≠ [])
    (hr : rep ≠ []) (hd : ∀ a ∈ rep, a ∉ find) :
    ∀ n s, s.length ≤ n → containsSeq find (replaceAll find rep s) = false := by
  intro n
  induction n with
  | zero =>
    intro s h
    have hs : s = [] := List.length_eq_zero.mp (Nat.le_zero.mp h)
    subst hs
    rw [replaceAll_nil]
    exact containsSeq_nil_of_ne hf
  | succ n ih =>
    intro s h
    cases s with
    | nil =>
      rw [replaceAll_nil]
      exact containsSeq_nil_of_ne hf
    | cons c cs =>
      have hfind : 1 ≤ find.length := by
        cases find with
        | nil => exact absurd rfl hf
        | cons a as => simp
      simp only [List.length_cons] at h
      by_cases hp : isPrefixSeq find (c :: cs) = true
      · rw [replaceAll_cons_pos find rep c cs hp hf]
        refine containsSeq_rep_append hf hd (ih _ ?_)
        simp only [List.length_drop, List.length_cons]
        omega
      · have hp' : isPrefixSeq find (c :: cs) = false := Bool.not_eq_true _ ▸ hp
        rw [replaceAll_cons_neg find rep c cs hp']
        have hcs : containsSeq find (replaceAll find rep cs) = false :=
          ih cs (by omega)
        simp only [containsSeq, Bool.or_eq_false_iff]
        refine ⟨?_, hcs⟩
        by_cases hcc : containsSeq find cs = true
        · -- the processed tail decomposes around the first match of the scan
          obtain ⟨p, q, hsq, hrw⟩ := replaceAll_decompose find rep hf cs hcc
          rw [hrw]
          cases find with
          | nil => exact absurd rfl hf
          | cons f0 ft =>
            by_contra hcontra
            rw [Bool.not_eq_false] at hcontra
            obtain ⟨t, ht⟩ := (isPrefixSeq_iff_append _ _).mp hcontra
            rw [List.cons_append] at ht
            injection ht with h1 h2
            rw [List.append_assoc] at h2
            -- h2 : p ++ (rep ++ replaceAll (f0 :: ft) rep q) = ft ++ t
            by_cases hlen : ft.length ≤ p.length
            · -- then ft is a prefix of p, so find matched at the head after all
              have hft : isPrefixSeq ft p = true :=
                isPrefixSeq_append_left
                  ((isPrefixSeq_iff_append ft _).mpr ⟨t, h2⟩) hlen
              obtain ⟨u, hu⟩ := (isPrefixSeq_iff_append ft p).mp hft
              have : isPrefixSeq (f0 :: ft) (c :: cs) = true := by
                rw [isPrefixSeq_iff_append]
                refine ⟨u ++ (f0 :: ft) ++ q, ?_⟩
                rw [hsq, hu, ← h1]
                simp
              exact absurd this (by rw [hp']; simp)
            · -- then the occurrence would contain the head of `rep`
              push_neg at hlen
              have hpf : isPrefixSeq p ft = true :=
                isPrefixSeq_append_left
                  ((isPrefixSeq_iff_append p _).mpr ⟨rep ++ replaceAll (f0 :: ft) rep q, h2.symm⟩)
                  (Nat.le_of_lt hlen)
              obtain ⟨w, hw⟩ := (isPrefixSeq_iff_append p ft).mp hpf
              have h3 : rep ++ replaceAll (f0 :: ft) rep q = w ++ t := by
                have hdr := congrArg (List.drop p.length) h2
                have hrhs : List.drop p.length (ft ++ t) = w ++ t := by
                  rw [hw, List.append_assoc, List.drop_left]
                rwa [List.drop_left, hrhs] at hdr
              cases hrep : rep with
              | nil => exact hr hrep
              | cons r0 rr =>
                cases hwc : w with
                | nil =>
                  have := congrArg List.length hw
                  simp only [hwc, List.length_append, List.length_nil] at this
                  omega
                | cons w0 ww =>
                  rw [hrep, hwc, List.cons_append, List.cons_append] at h3
                  injection h3 with hh _
                  have hw0 : w0 ∈ ft := by
                    rw [hw, hwc]
                    exact List.mem_append_right _ (List.mem_cons_self _ _)
                  have hr0 : r0 ∈ rep := hrep ▸ List.mem_cons_self _ _
                  exact hd r0 hr0 (hh ▸ List.mem_cons_of_mem _ hw0)
        · -- no match anywhere in the tail: the tail is returned untouched
          have hcc' : containsSeq find cs = false := Bool.not_eq_true _ ▸ hcc
          rw [replaceAll_of_not_contains find rep cs hcc']
          exact hp'

/-- Replacing a pattern by text that shares no character with it leaves no
occurrence of the pattern in the output. -/
theorem containsSeq_replaceAll {find rep : List Char} (hf : find ≠ [])
    (hr : rep ≠ []) (hd : ∀ a ∈ rep, a ∉ find) (s : List Char) :
    containsSeq find (replaceAll find rep s) = false :=
  containsSeq_replaceAll_aux hf hr hd s.length s (Nat.le_refl _)

/-- Occurrence is antitone along pattern prefixes: where a longer pattern
occurs, each of its prefixes occurs too. -/
theorem containsSeq_of_isPrefixSeq {f g : List Char} (hfg : isPrefixSeq f g = true) :
    ∀ s, containsSeq g s = true → containsSeq f s = true := by
  intro s
  induction s with
  | nil =>
    intro h
    cases g with
    | nil =>
      cases f with
      | nil => rfl
      | cons a as => simp [isPrefixSeq] at hfg
    | cons b bs => simp [containsSeq, List.isEmpty] at h
  | cons c cs ih =>
    intro h
    simp only [containsSeq, Bool.or_eq_true] at h ⊢
    rcases h with h | h
    · exact Or.inl (isPrefixSeq_trans hfg h)
    · exact Or.inr (ih h)

/-- A run of characters none of which equals the pattern's first character is
copied through `replaceAll` unchanged. -/
theorem replaceAll_append_of_head_ne (f0 : Char) (ft rep : List Char) :
    ∀ u q : List Char, (∀ a ∈ u, a ≠ f0) →
      replaceAll (f0 :: ft) rep (u ++ q) = u ++ replaceAll (f0 :: ft) rep q := by
  intro u
  induction u with
  | nil => intro q _; rfl
  | cons a u' ih =>
    intro q hu
    have hne : isPrefixSeq (f0 :: ft) (a :: (u' ++ q)) = false := by
      simp only [isPrefixSeq, Bool.and_eq_false_iff]
      left
      simp only [beq_eq_false_iff_ne, ne_eq]
      exact fun hfa => (hu a (List.mem_cons_self _ _)) hfa.symm
    rw [List.cons_append, replaceAll_cons_neg _ _ _ _ hne,
      ih q (fun a ha => hu a (List.mem_cons_of_mem _ ha))]
    rfl

/-- `"Kilo"`, the single-word legacy brand token (line 163). -/
def kiloToken : List Char := "Kilo".data

/-- `"Kilo Code"`, the two-word legacy brand phrase (line 159). -/
def kiloCodePhrase : List Char := "Kilo Code".data

/-- `"Kilocode"`, the concatenated legacy identifier (line 171). -/
def kilocodeToken : List Char := "Kilocode".data

/-- `"kilo-code"`, the legacy package identifier replaced in the manifest
(line 50). -/
def kiloHyphenSlug : List Char := "kilo-code".data

/-- `"kilocode"`, the legacy unhyphenated identifier replaced in the manifest
(line 56). -/
def kilocodeSlug : List Char := "kilocode".data

/-- `"code"`, the residue of `"Kilocode"` once its `"Kilo"` prefix is gone. -/
def codeTail : List Char := "code".data

theorem kiloToken_eq : kiloToken = 'K' :: 'i' :: 'l' :: 'o' :: [] := rfl

theorem kilocodeToken_eq :
    kilocodeToken = 'K' :: 'i' :: 'l' :: 'o' :: 'c' :: 'o' :: 'd' :: 'e' :: [] := rfl

theorem kilocodeToken_split : kilocodeToken = kiloToken ++ codeTail := rfl

theorem kiloToken_ne_nil : kiloToken ≠ [] := by
  rw [kiloToken_eq]
  simp

/-- `replaceAll "Kilo"` on a text starting with `"Kilocode"`: the `"Kilo"`
prefix is consumed as a match and `"code"` is copied through. -/
theorem replaceAll_kilo_cons (rep q : List Char) :
    replaceAll kiloToken rep (kilocodeToken ++ q) =
      rep ++ (codeTail ++ replaceAll kiloToken rep q) := by
  have hpre : isPrefixSeq kiloToken (kilocodeToken ++ q) = true := by
    rw [kilocodeToken_split, List.append_assoc]
    exact isPrefixSeq_append_self _ _
  have hshape : kilocodeToken ++ q =
      'K' :: ('i' :: 'l' :: 'o' :: 'c' :: 'o' :: 'd' :: 'e' :: q) := by
    rw [kilocodeToken_eq]
    rfl
  rw [hshape] at hpre ⊢
  rw [replaceAll_cons_pos kiloToken rep _ _ hpre kiloToken_ne_nil]
  have hdrop : List.drop kiloToken.length
      ('K' :: ('i' :: 'l' :: 'o' :: 'c' :: 'o' :: 'd' :: 'e' :: q)) =
      codeTail ++ q := by
    rw [kiloToken_eq]
    rfl
  rw [hdrop]
  have hcq : ∀ a ∈ codeTail, a ≠ 'K' := by decide
  have : kiloToken = 'K' :: ('i' :: 'l' :: 'o' :: []) := rfl
  rw [this, replaceAll_append_of_head_ne 'K' _ rep codeTail q hcq]

/-- The scan of `replaceAll "Kilo"` never crosses into an embedded
`"Kilocode"`: the text left and right of it is processed independently, and
the occurrence itself always comes out as `rep ++ "code"`. -/
theorem replaceAll_kilo_append_aux (rep q : List Char) :
    ∀ n p, p.length ≤ n →
      replaceAll kiloToken rep (p ++ (kilocodeToken ++ q)) =
        replaceAll kiloToken rep p ++ rep ++ (codeTail ++ replaceAll kiloToken rep q) := by
  intro n
  induction n with
  | zero =>
    intro p hp
    have : p = [] := List.length_eq_zero.mp (Nat.le_zero.mp hp)
    subst this
    rw [List.nil_append, replaceAll_kilo_cons, replaceAll_nil, List.nil_append]
  | succ n ih =>
    intro p hp
    cases p with
    | nil =>
      rw [List.nil_append, replaceAll_kilo_cons, replaceAll_nil, List.nil_append]
    | cons c p' =>
      have hp' : p'.length ≤ n := by
        simp only [List.length_cons] at hp
        omega
      rw [List.cons_append]
      by_cases hm : isPrefixSeq kiloToken (c :: (p' ++ (kilocodeToken ++ q))) = true
      · by_cases hl : 3 ≤ p'.length
        · -- the match lies entirely inside `c :: p'`
          have hmp : isPrefixSeq kiloToken (c :: p') = true := by
            rw [← List.cons_append] at hm
            exact isPrefixSeq_append_left hm
              (by rw [kiloToken_eq]; simp only [List.length_cons, List.length_nil]; omega)
          rw [replaceAll_cons_pos kiloToken rep _ _ hm kiloToken_ne_nil,
            replaceAll_cons_pos kiloToken rep _ _ hmp kiloToken_ne_nil]
          have hdrop : List.drop kiloToken.length (c :: (p' ++ (kilocodeToken ++ q))) =
              List.drop kiloToken.length (c :: p') ++ (kilocodeToken ++ q) := by
            rw [← List.cons_append, List.drop_append_eq_append_drop]
            have hz : kiloToken.length - (c :: p').length = 0 := by
              rw [kiloToken_eq]
              simp only [List.length_cons, List.length_nil]
              omega
            rw [hz, List.drop_zero]
          rw [hdrop, ih (List.drop kiloToken.length (c :: p'))
            (by rw [kiloToken_eq]; simp only [List.length_drop, List.length_cons,
              List.length_nil]; omega)]
          simp [List.append_assoc]
        · -- a short `c :: p'` cannot host a match reaching into `"Kilocode"`
          exfalso
          push_neg at hl
          interval_cases hpl : p'.length
          · have h0 : p' = [] := List.length_eq_zero.mp hpl
            subst h0
            rw [kiloToken_eq, kilocodeToken_eq] at hm
            simp [isPrefixSeq] at hm
          · obtain ⟨a, h1⟩ := List.length_eq_one.mp hpl
            subst h1
            rw [kiloToken_eq, kilocodeToken_eq] at hm
            simp [isPrefixSeq] at hm
          · match p', hpl with
            | [a, b], _ =>
              rw [kiloToken_eq, kilocodeToken_eq] at hm
              simp [isPrefixSeq] at hm
      · have hm' : isPrefixSeq kiloToken (c :: (p' ++ (kilocodeToken ++ q))) = false :=
          Bool.not_eq_true _ ▸ hm
        have hmp : isPrefixSeq kiloToken (c :: p') = false := by
          by_contra hx
          rw [Bool.not_eq_false] at hx
          have := isPrefixSeq_extend (kilocodeToken ++ q) hx
          rw [List.cons_append] at this
          exact absurd this (by rw [hm']; simp)
        rw [replaceAll_cons_neg kiloToken rep _ _ hm',
          replaceAll_cons_neg kiloToken rep _ _ hmp,
          ih p' (by simpa using Nat.le_of_succ_le_succ hp)]
        rfl

theorem replaceAll_kilo_append (rep p q : List Char) :
    replaceAll kiloToken rep (p ++ (kilocodeToken ++ q)) =
      replaceAll kiloToken rep p ++ rep ++ (codeTail ++ replaceAll kiloToken rep q) :=
  replaceAll_kilo_append_aux rep q p.length p (Nat.le_refl _)

/-! ### The branding configuration (interface `BrandingConfig`, lines 11-24)

`shortName` is not declared in the TypeScript interface; line 144 reads it via
`(branding as any).shortName`, so it is modelled as an optional field.  The
`files` and `icons` members are threaded into the stage functions directly. -/

structure BrandingConfig where
  name : String
  displayName : String
  publisher : String
  description : String
  outputChannelName : String
  repository : String
  homepage : String
  shortName : Option String

/-! ### Stage 1, textual part: the two manifest replacements (lines 44-56) -/

/-- Lines 50 and 56: `"kilo-code"` → `branding.name` over the raw manifest
text, then `"kilocode"` → `branding.publisher` over the result. -/
def manifestSubstitute (name publisher content : List Char) : List Char :=
  replaceAll kilocodeSlug publisher (replaceAll kiloHyphenSlug name content)

/-! ### Stage 1, structured part: the field overwrite (lines 58-78) -/

/-- The `repository` member of the parsed manifest.  Before the overwrite it
may hold whatever the repository's manifest contained (`original`); line 66
assigns the object `{ type: "git", url: branding.repository }` (`git`). -/
inductive RepoField where
  | original (v : String) : RepoField
  | git (url : String) : RepoField
deriving DecidableEq

/-- The fields of the parsed `package.json` that lines 61-73 touch, plus an
opaque remainder standing for every other member of the object. -/
structure PackageManifest where
  name : String
  publisher : String
  description : String
  repository : RepoField
  homepage : String
  others : List (String × String)
deriving DecidableEq

/-- Lines 61-73: force-overwrite `name`, `publisher`, `description`; overwrite
`repository` with the git object when `branding.repository` is truthy
(non-empty), and `homepage` when `branding.homepage` is truthy. -/
def applyManifestFields (branding : BrandingConfig) (packageJson : PackageManifest) :
    PackageManifest :=
  let p1 := { packageJson with
    name := branding.name
    publisher := branding.publisher
    description := branding.description }
  let p2 := if branding.repository ≠ "" then
    { p1 with repository := RepoField.git branding.repository } else p1
  if branding.homepage ≠ "" then { p2 with homepage := branding.homepage } else p2

/-! ### Stage 2: the localization-map overwrite (lines 88-99)

A parsed flat JSON object is modelled as an association list (JSON parsing
never yields duplicate keys; insertion order is what `JSON.stringify`
serializes).  `nls[key] = value` updates the binding in place when the key is
present and appends it otherwise. -/

/-- JavaScript `obj[k] = v` on a parsed JSON object. -/
def setKey (m : List (String × String)) (k v : String) : List (String × String) :=
  if m.any (fun p => p.1 == k) then
    m.map (fun p => if p.1 == k then (k, v) else p)
  else
    m ++ [(k, v)]

/-- Reading `obj[k]` from a parsed JSON object. -/
def lookupKey (k : String) : List (String × String) → Option String
  | [] => none
  | p :: rest => if p.1 == k then some p.2 else lookupKey k rest

/-- The seven keys lines 91-97 assign. -/
def nlsKnownKeys : List String :=
  ["extension.displayName", "extension.description", "views.activitybar.title",
   "views.sidebar.name", "configuration.title", "views.contextMenu.label",
   "views.terminalMenu.label"]

/-- Lines 91-97: overwrite the seven known keys; `extension.description` gets
`branding.description`, the six others get `branding.displayName`. -/
def applyNls (branding : BrandingConfig) (nls : List (String × String)) :
    List (String × String) :=
  let n1 := setKey nls "extension.displayName" branding.displayName
  let n2 := setKey n1 "extension.description" branding.description
  let n3 := setKey n2 "views.activitybar.title" branding.displayName
  let n4 := setKey n3 "views.sidebar.name" branding.displayName
  let n5 := setKey n4 "configuration.title" branding.displayName
  let n6 := setKey n5 "views.contextMenu.label" branding.displayName
  setKey n6 "views.terminalMenu.label" branding.displayName

/-! ### Stage 3: icon materialization (lines 106-137)

The file system is modelled by an existence oracle `ex : String → Bool`
(`fs.existsSync`); `path.join` is modelled as separator concatenation and
`path.isAbsolute` as the POSIX leading-slash test, which is all the resolution
logic observes of them. -/

/-- Model of `path.join` on two segments. -/
def pathJoin (a b : String) : String := a ++ "/" ++ b

/-- Model of `path.isAbsolute`. -/
def isAbsolutePath (p : String) : Bool := p.data.head? = some '/'

/-- Lines 119-127: an absolute `srcPath` is used as-is; a relative one is
joined to the rebranding directory (where `branding.json` lives), and only if
that path does not exist, joined to the project root instead. -/
def resolveIconSource (ex : String → Bool) (rebrandingDir rootDir srcPath : String) :
    String :=
  if isAbsolutePath srcPath then srcPath
  else
    let firstTry := pathJoin rebrandingDir srcPath
    if ex firstTry then firstTry else pathJoin rootDir srcPath

/-- What one loop iteration of lines 112-137 does to the world: copies the
resolved source over `iconsDir/destName`, or warns. -/
inductive IconEvent where
  | copied (destPath srcPath : String) : IconEvent
  | warned (srcPath : String) : IconEvent
deriving DecidableEq

/-- One iteration of the `for` loop (lines 112-137): skip a falsy `srcPath`
silently, otherwise resolve it and either copy or warn. -/
def processIconPair (ex : String → Bool) (rebrandingDir rootDir iconsDir : String)
    (pair : String × String) : List IconEvent :=
  if pair.2 = "" then []
  else
    let absoluteSrcPath := resolveIconSource ex rebrandingDir rootDir pair.2
    if ex absoluteSrcPath then
      [IconEvent.copied (pathJoin iconsDir pair.1) absoluteSrcPath]
    else
      [IconEvent.warned absoluteSrcPath]

/-- The whole icon loop, in the iteration order of `Object.entries`. -/
def processIcons (ex : String → Bool) (rebrandingDir rootDir iconsDir : String) :
    List (String × String) → List IconEvent
  | [] => []
  | pair :: rest =>
    processIconPair ex rebrandingDir rootDir iconsDir pair ++
      processIcons ex rebrandingDir rootDir iconsDir rest

/-! ### Stage 4: the locale rewriting (lines 140-177) -/

/-- JavaScript `str.split(" ")` (split on the single space character; every
run between two spaces becomes an element, so the result is never empty). -/
def splitOnSpaceChar : List Char → List (List Char)
  | [] => [[]]
  | c :: cs =>
    match splitOnSpaceChar cs with
    | [] => [[]]
    | t :: ts => if c = ' ' then [] :: t :: ts else (c :: t) :: ts

/-- `displayName.split(" ")[0]` of line 144. -/
def firstSpaceToken (displayName : List Char) : List Char :=
  match splitOnSpaceChar displayName with
  | [] => []
  | t :: _ => t

/-- Line 144: `(branding as any).shortName || displayName.split(" ")[0] ||
displayName`, with JavaScript falsiness of the empty string. -/
def deriveShortName (shortNameField : Option (List Char)) (displayName : List Char) :
    List Char :=
  let fromSplit := firstSpaceToken displayName
  let fallback := if fromSplit ≠ [] then fromSplit else displayName
  match shortNameField with
  | some s => if s ≠ [] then s else fallback
  | none => fallback

/-- Lines 159-171: the three ordered substitutions applied to each locale
file's raw text: `"Kilo Code"` → shortName, then `"Kilo"` → shortName, then
`"Kilocode"` → displayName. -/
def localeTransform (shortName displayName content : List Char) : List Char :=
  replaceAll kilocodeToken displayName
    (replaceAll kiloToken shortName
      (replaceAll kiloCodePhrase shortName content))

/-- Modelled from the spec: "the first whitespace-delimited token of
`displayName`, falling back to the full `displayName` if splitting yields
nothing" (§3).  This is the spec's wording, written to be compared with the
source-derived `deriveShortName`; it tokenizes on every whitespace character,
not only on `' '`. -/
def specFirstWhitespaceToken (displayName : List Char) : List Char :=
  match (displayName.splitOnP (fun c => c.isWhitespace)).filter
      (fun t => t ≠ []) with
  | [] => displayName
  | t :: _ => t

/-! ### Control flow of `main` (lines 26-180)

The file system and parser outcomes relevant to control flow are abstracted
into flags; `runPipeline` is the control-flow skeleton of `main`:

* line 27-30: if `branding.json` does not exist, `process.exit(1)`;
* line 32: `JSON.parse` of the configuration may throw;
* lines 40-82: stage 1 runs when `package.json` exists (line 58 `JSON.parse`
  may throw), otherwise reports `not found` and continues;
* lines 88-103: likewise for `package.nls.json` (line 89 may throw);
* lines 106-138: the icon stage (no JSON parsing, never throws here);
* lines 140-177: the locale stage runs only under `if (fs.existsSync(localesDir))`
  — there is **no** `else` branch, so a missing locale directory is skipped
  without any report;
* line 180: `main().catch(console.error)` — a thrown exception rejects the
  promise, the handler prints it, and the process then terminates normally,
  i.e. with the default exit status 0. -/

structure FsWorld where
  brandingExists : Bool
  brandingParseOk : Bool
  packageExists : Bool
  packageParseOk : Bool
  nlsExists : Bool
  nlsParseOk : Bool
  hasIcons : Bool
  localesDirExists : Bool
deriving DecidableEq

/-- The externally visible per-stage actions, with their reporting behaviour:
`packageSkipped` and `nlsSkipped` correspond to `console.error(... not found)`
(lines 81, 102); `localesSkippedSilently` to the absent `else` of line 142. -/
inductive StageEvent where
  | packageUpdated | packageSkipped
  | nlsUpdated | nlsSkipped
  | iconsProcessed
  | localesUpdated | localesSkippedSilently
deriving DecidableEq

/-- How the process ends: `exitedEarly` is `process.exit(1)`; `rejected` is an
exception escaping `main` into the `.catch` handler of line 180 (carrying the
stages completed before the throw); `finished` is a normal completion. -/
inductive RunOutcome where
  | exitedEarly (code : Nat) : RunOutcome
  | rejected (stagesDone : List StageEvent) : RunOutcome
  | finished (stagesDone : List StageEvent) : RunOutcome
deriving DecidableEq

/-- The control-flow skeleton of `main` (lines 26-178). -/
def runPipeline (w : FsWorld) : RunOutcome :=
  if w.brandingExists = false then RunOutcome.exitedEarly 1
  else if w.brandingParseOk = false then RunOutcome.rejected []
  else
    let stage1 : Option (List StageEvent) :=
      if w.packageExists then
        (if w.packageParseOk then some [StageEvent.packageUpdated] else none)
      else some [StageEvent.packageSkipped]
    match stage1 with
    | none => RunOutcome.rejected []
    | some e1 =>
      let stage2 : Option (List StageEvent) :=
        if w.nlsExists then
          (if w.nlsParseOk then some (e1 ++ [StageEvent.nlsUpdated]) else none)
        else some (e1 ++ [StageEvent.nlsSkipped])
      match stage2 with
      | none => RunOutcome.rejected e1
      | some e2 =>
        let e3 := if w.hasIcons then e2 ++ [StageEvent.iconsProcessed] else e2
        let e4 := if w.localesDirExists then e3 ++ [StageEvent.localesUpdated]
          else e3 ++ [StageEvent.localesSkippedSilently]
        RunOutcome.finished e4

/-- The status the operating system sees.  `process.exit(1)` carries its code;
a rejection is handled by `.catch(console.error)` (line 180), after which the
Node process terminates normally — status 0; normal completion is status 0. -/
def exitCode : RunOutcome → Nat
  | RunOutcome.exitedEarly c => c
  | RunOutcome.rejected _ => 0
  | RunOutcome.finished _ => 0

/-! ### Lemmas about the object-update model -/

theorem lookupKey_append_singleton (k k' v : String) (h : k' ≠ k) :
    ∀ m : List (String × String), lookupKey k' (m ++ [(k, v)]) = lookupKey k' m := by
  intro m
  induction m with
  | nil =>
    simp only [List.nil_append, lookupKey]
    rw [if_neg]
    simp only [beq_iff_eq]
    exact fun hk => h hk.symm
  | cons p rest ih =>
    simp only [List.cons_append, lookupKey, List.append_eq]
    rw [ih]

theorem lookupKey_setKey_self (k v : String) :
    ∀ m : List (String × String), lookupKey k (setKey m k v) = some v := by
  intro m
  induction m with
  | nil =>
    simp [setKey, lookupKey]
  | cons p rest ih =>
    by_cases hp : (p.1 == k) = true
    · have hany : ((p :: rest).any (fun p => p.1 == k)) = true := by
        simp [List.any_cons, hp]
      simp only [setKey, hany, if_pos, List.map_cons, hp, if_true]
      simp [lookupKey]
    · have hp' : (p.1 == k) = false := Bool.not_eq_true _ ▸ hp
      by_cases hr : (rest.any (fun p => p.1 == k)) = true
      · have hany : ((p :: rest).any (fun p => p.1 == k)) = true := by
          simp [List.any_cons, hr]
        simp only [setKey, hany, if_pos, List.map_cons, hp', Bool.false_eq_true,
          if_false, lookupKey]
        have := ih
        rw [setKey, if_pos hr] at this
        exact this
      · have hr' : (rest.any (fun p => p.1 == k)) = false := Bool.not_eq_true _ ▸ hr
        have hany : ((p :: rest).any (fun p => p.1 == k)) = false := by
          simp [List.any_cons, hp', hr']
        rw [setKey, if_neg (by simp [hany])]
        simp only [List.cons_append, lookupKey]
        rw [if_neg (by simp [hp'])]
        have := ih
        rw [setKey, if_neg (by simp [hr'])] at this
        exact this

theorem lookupKey_map_update (k v k' : String) (h : k' ≠ k) :
    ∀ m : List (String × String),
      lookupKey k' (m.map (fun p => if p.1 == k then (k, v) else p)) =
        lookupKey k' m := by
  intro m
  induction m with
  | nil => rfl
  | cons p rest ih =>
    simp only [List.map_cons]
    by_cases hp : (p.1 == k) = true
    · rw [if_pos hp]
      simp only [lookupKey]
      rw [if_neg (by simp only [beq_iff_eq]; exact fun hk => h hk.symm), ih,
        if_neg (by
          simp only [beq_iff_eq] at hp ⊢
          rw [hp]
          exact fun hk => h hk.symm)]
    · rw [if_neg hp]
      simp only [lookupKey]
      by_cases hq : (p.1 == k') = true
      · rw [if_pos hq, if_pos hq]
      · rw [if_neg hq, if_neg hq, ih]

theorem lookupKey_setKey_ne (k v k' : String) (h : k' ≠ k)
    (m : List (String × String)) :
    lookupKey k' (setKey m k v) = lookupKey k' m := by
  rw [setKey]
  by_cases hany : (m.any (fun p => p.1 == k)) = true
  · rw [if_pos hany]
    exact lookupKey_map_update k v k' h m
  · rw [if_neg hany]
    exact lookupKey_append_singleton k k' v h m

/-! ### Lemmas about the split used for `shortName` -/

theorem splitOnSpaceChar_of_no_space :
    ∀ s : List Char, ' ' ∉ s → splitOnSpaceChar s = [s] := by
  intro s
  induction s with
  | nil => intro _; rfl
  | cons c cs ih =>
    intro h
    have hc : c ≠ ' ' := fun he => h (he ▸ List.mem_cons_self _ _)
    have hcs : ' ' ∉ cs := fun hm => h (List.mem_cons_of_mem _ hm)
    simp only [splitOnSpaceChar, ih hcs]
    rw [if_neg (fun he => hc he)]

/-! ### Sample data shared by the claim witnesses -/

/-- The configuration of the spec's running example. -/
def brandingSample : BrandingConfig :=
  { name := "jack-code"
    displayName := "Jack Assistant"
    publisher := "jackcode"
    description := "Jack the assistant"
    outputChannelName := "Jack"
    repository := "https://example.com/jack.git"
    homepage := "https://example.com"
    shortName := some "Jack" }

/-- A fragment of manifest text exercising both legacy tokens. -/
def manifestSample : List Char :=
  "id kilo-code.someView activationEvents onView:kilocode.Provider end".data

/-- A parsed manifest before the field overwrite. -/
def manifestBefore : PackageManifest :=
  { name := "kilo-code"
    publisher := "kilocode"
    description := "old description"
    repository := RepoField.original "old-repo"
    homepage := "old-home"
    others := [("version", "1.0.0")] }

/-- A localization map holding one unknown key next to two known ones. -/
def nlsSample : List (String × String) :=
  [("other.key", "keep me"), ("extension.displayName", "Kilo Code"),
   ("configuration.title", "Kilo Code")]

/-- An existence oracle for which nothing exists. -/
def exNone : String → Bool := fun _ => false

/-- An existence oracle for which exactly `root/ok.png` exists. -/
def exSample : String → Bool := fun p => p == pathJoin "root" "ok.png"

/-- Shared helper: what `applyManifestFields` does to every field. -/
theorem applyManifestFields_fields (b : BrandingConfig) (m : PackageManifest) :
    (applyManifestFields b m).name = b.name ∧
    (applyManifestFields b m).publisher = b.publisher ∧
    (applyManifestFields b m).description = b.description ∧
    (applyManifestFields b m).repository =
      (if b.repository ≠ "" then RepoField.git b.repository else m.repository) ∧
    (applyManifestFields b m).homepage =
      (if b.homepage ≠ "" then b.homepage else m.homepage) ∧
    (applyManifestFields b m).others = m.others := by
  unfold applyManifestFields
  by_cases h1 : b.repository ≠ "" <;> by_cases h2 : b.homepage ≠ "" <;>
    simp [h1, h2]

/-! ### The claims -/

/-- Claim C1, amended: with `shortName = "Jack"` and
`displayName = "Jack Assistant"`, the ordered three-step substitution sends
`"Kilo Code has a question"` to `"Jack has a question"`, `"Kilo said hi"` to
`"Jack said hi"`, and `"Kilocode settings"` to `"Jackcode settings"` — the
second step consumes the `"Kilo"` prefix of `"Kilocode"`, so the third step
never sees it and the output is `shortName ++ "code"`, not the
`displayName`-based text the original claim states. -/
theorem claim1_locale_examples :
    localeTransform "Jack".data "Jack Assistant".data "Kilo Code has a question".data =
      "Jack has a question".data ∧
    localeTransform "Jack".data "Jack Assistant".data "Kilo said hi".data =
      "Jack said hi".data ∧
    localeTransform "Jack".data "Jack Assistant".data "Kilocode settings".data =
      "Jackcode settings".data := by
  refine ⟨?_, ?_, ?_⟩ <;> decide

/-- Claim C1, counterexample to the original statement: on
`"Kilocode settings"` the pipeline yields `"Jackcode settings"`, not the
claimed `"Jack Assistant settings"`. -/
theorem claim1_counterexample :
    localeTransform "Jack".data "Jack Assistant".data "Kilocode settings".data ≠
      "Jack Assistant settings".data := by
  decide

/-- Claim C2: the manifest rewriter substitutes `"kilo-code"` with the
configured name and then `"kilocode"` with the configured publisher, as plain
substring replacement; on text containing `"kilo-code.someView"` and
`"onView:kilocode.Provider"` with name `"jack-code"` and publisher
`"jackcode"`, the output contains `"jack-code.someView"` and
`"onView:jackcode.Provider"` and no occurrence of either legacy token. -/
theorem claim2_manifest_substitution :
    containsSeq "jack-code.someView".data
      (manifestSubstitute "jack-code".data "jackcode".data manifestSample) = true ∧
    containsSeq "onView:jackcode.Provider".data
      (manifestSubstitute "jack-code".data "jackcode".data manifestSample) = true ∧
    containsSeq kiloHyphenSlug
      (manifestSubstitute "jack-code".data "jackcode".data manifestSample) = false ∧
    containsSeq kilocodeSlug
      (manifestSubstitute "jack-code".data "jackcode".data manifestSample) = false := by
  refine ⟨?_, ?_, ?_, ?_⟩ <;> decide

/-- Claim C3: after parsing, `name`, `publisher` and `description` are
unconditionally overwritten with the configured values; `repository` becomes
the git object exactly when the configured repository is non-empty and
`homepage` is overwritten exactly when the configured homepage is non-empty,
both left unchanged otherwise; no other member is touched. -/
theorem claim3_manifest_fields (b : BrandingConfig) (m : PackageManifest) :
    (applyManifestFields b m).name = b.name ∧
    (applyManifestFields b m).publisher = b.publisher ∧
    (applyManifestFields b m).description = b.description ∧
    (applyManifestFields b m).repository =
      (if b.repository ≠ "" then RepoField.git b.repository else m.repository) ∧
    (applyManifestFields b m).homepage =
      (if b.homepage ≠ "" then b.homepage else m.homepage) ∧
    (applyManifestFields b m).others = m.others :=
  applyManifestFields_fields b m

/-- Claim C4, amended: the structured field overwrite is unconditionally
idempotent and pins `name`, `publisher`, `description` to the configured
values; each textual pass is a fixed point on any text in which no occurrence
of its legacy tokens remains — which holds for the output of a first
application whenever that output is legacy-token-free, but (see the
counterexample) the first application does not eliminate the tokens for every
valid configuration. -/
theorem claim4_fixed_point (b : BrandingConfig) (m : PackageManifest)
    (name publisher sN dN s v : List Char)
    (h1 : containsSeq kiloHyphenSlug (manifestSubstitute name publisher s) = false)
    (h2 : containsSeq kilocodeSlug (manifestSubstitute name publisher s) = false)
    (h3 : containsSeq kiloCodePhrase (localeTransform sN dN v) = false)
    (h4 : containsSeq kiloToken (localeTransform sN dN v) = false)
    (h5 : containsSeq kilocodeToken (localeTransform sN dN v) = false) :
    manifestSubstitute name publisher (manifestSubstitute name publisher s) =
      manifestSubstitute name publisher s ∧
    localeTransform sN dN (localeTransform sN dN v) = localeTransform sN dN v ∧
    applyManifestFields b (applyManifestFields b m) = applyManifestFields b m ∧
    (applyManifestFields b m).name = b.name ∧
    (applyManifestFields b m).publisher = b.publisher ∧
    (applyManifestFields b m).description = b.description := by
  refine ⟨?_, ?_, ?_, ?_, ?_, ?_⟩
  · show replaceAll kilocodeSlug publisher
      (replaceAll kiloHyphenSlug name (manifestSubstitute name publisher s)) = _
    rw [replaceAll_of_not_contains _ _ _ h1, replaceAll_of_not_contains _ _ _ h2]
  · show replaceAll kilocodeToken dN (replaceAll kiloToken sN
      (replaceAll kiloCodePhrase sN (localeTransform sN dN v))) = _
    rw [replaceAll_of_not_contains _ _ _ h3, replaceAll_of_not_contains _ _ _ h4,
      replaceAll_of_not_contains _ _ _ h5]
  · unfold applyManifestFields
    by_cases hr : b.repository ≠ "" <;> by_cases hh : b.homepage ≠ "" <;>
      simp [hr, hh]
  · exact (applyManifestFields_fields b m).1
  · exact (applyManifestFields_fields b m).2.1
  · exact (applyManifestFields_fields b m).2.2.1

/-- Claim C4, witness: the amended fixed point at the spec's example
configuration and texts. -/
theorem claim4_fixed_point_witness :
    (containsSeq kiloHyphenSlug
        (manifestSubstitute "jack-code".data "jackcode".data manifestSample) = false ∧
      containsSeq kilocodeSlug
        (manifestSubstitute "jack-code".data "jackcode".data manifestSample) = false ∧
      containsSeq kiloCodePhrase
        (localeTransform "Jack".data "Jack Assistant".data "Kilo Code has a question".data) = false ∧
      containsSeq kiloToken
        (localeTransform "Jack".data "Jack Assistant".data "Kilo Code has a question".data) = false ∧
      containsSeq kilocodeToken
        (localeTransform "Jack".data "Jack Assistant".data "Kilo Code has a question".data) = false) ∧
    manifestSubstitute "jack-code".data "jackcode".data
        (manifestSubstitute "jack-code".data "jackcode".data manifestSample) =
      manifestSubstitute "jack-code".data "jackcode".data manifestSample ∧
    localeTransform "Jack".data "Jack Assistant".data
        (localeTransform "Jack".data "Jack Assistant".data "Kilo Code has a question".data) =
      localeTransform "Jack".data "Jack Assistant".data "Kilo Code has a question".data ∧
    applyManifestFields brandingSample (applyManifestFields brandingSample manifestBefore) =
      applyManifestFields brandingSample manifestBefore :=
  ⟨⟨by decide, by decide, by decide, by decide, by decide⟩,
    (claim4_fixed_point brandingSample manifestBefore "jack-code".data "jackcode".data
      "Jack".data "Jack Assistant".data manifestSample "Kilo Code has a question".data
      (by decide) (by decide) (by decide) (by decide) (by decide)).1,
    (claim4_fixed_point brandingSample manifestBefore "jack-code".data "jackcode".data
      "Jack".data "Jack Assistant".data manifestSample "Kilo Code has a question".data
      (by decide) (by decide) (by decide) (by decide) (by decide)).2.1,
    (claim4_fixed_point brandingSample manifestBefore "jack-code".data "jackcode".data
      "Jack".data "Jack Assistant".data manifestSample "Kilo Code has a question".data
      (by decide) (by decide) (by decide) (by decide) (by decide)).2.2.1⟩

/-- Claim C4, counterexample to the original statement: the valid
configuration with `name = "kilo-code-pro"` leaves a literal `"kilo-code"` in
the first application's output, and a second application changes the text
again — the pipeline is not a fixed point after one application for every
valid configuration. -/
theorem claim4_counterexample :
    containsSeq kiloHyphenSlug
      (manifestSubstitute "kilo-code-pro".data "jackcode".data "kilo-code".data) = true ∧
    manifestSubstitute "kilo-code-pro".data "jackcode".data
        (manifestSubstitute "kilo-code-pro".data "jackcode".data "kilo-code".data) ≠
      manifestSubstitute "kilo-code-pro".data "jackcode".data "kilo-code".data := by
  refine ⟨?_, ?_⟩ <;> decide

/-- Claim C5: the localization-map rewrite changes exactly the seven known
keys — `extension.description` to the configured description and the six
others to the configured display name — and reads back every other key
unchanged. -/
theorem claim5_nls_frame (b : BrandingConfig) (nls : List (String × String))
    (k : String) (hk : k ∉ nlsKnownKeys) :
    lookupKey k (applyNls b nls) = lookupKey k nls ∧
    lookupKey "extension.displayName" (applyNls b nls) = some b.displayName ∧
    lookupKey "extension.description" (applyNls b nls) = some b.description ∧
    lookupKey "views.activitybar.title" (applyNls b nls) = some b.displayName ∧
    lookupKey "views.sidebar.name" (applyNls b nls) = some b.displayName ∧
    lookupKey "configuration.title" (applyNls b nls) = some b.displayName ∧
    lookupKey "views.contextMenu.label" (applyNls b nls) = some b.displayName ∧
    lookupKey "views.terminalMenu.label" (applyNls b nls) = some b.displayName := by
  simp only [nlsKnownKeys, List.mem_cons, List.not_mem_nil, or_false, not_or] at hk
  obtain ⟨n1, n2, n3, n4, n5, n6, n7⟩ := hk
  unfold applyNls
  refine ⟨?_, ?_, ?_, ?_, ?_, ?_, ?_, ?_⟩
  · rw [lookupKey_setKey_ne _ _ _ n7, lookupKey_setKey_ne _ _ _ n6,
      lookupKey_setKey_ne _ _ _ n5, lookupKey_setKey_ne _ _ _ n4,
      lookupKey_setKey_ne _ _ _ n3, lookupKey_setKey_ne _ _ _ n2,
      lookupKey_setKey_ne _ _ _ n1]
  · rw [lookupKey_setKey_ne _ _ _ (by decide), lookupKey_setKey_ne _ _ _ (by decide),
      lookupKey_setKey_ne _ _ _ (by decide), lookupKey_setKey_ne _ _ _ (by decide),
      lookupKey_setKey_ne _ _ _ (by decide), lookupKey_setKey_ne _ _ _ (by decide)]
    exact lookupKey_setKey_self _ _ _
  · rw [lookupKey_setKey_ne _ _ _ (by decide), lookupKey_setKey_ne _ _ _ (by decide),
      lookupKey_setKey_ne _ _ _ (by decide), lookupKey_setKey_ne _ _ _ (by decide),
      lookupKey_setKey_ne _ _ _ (by decide)]
    exact lookupKey_setKey_self _ _ _
  · rw [lookupKey_setKey_ne _ _ _ (by decide), lookupKey_setKey_ne _ _ _ (by decide),
      lookupKey_setKey_ne _ _ _ (by decide), lookupKey_setKey_ne _ _ _ (by decide)]
    exact lookupKey_setKey_self _ _ _
  · rw [lookupKey_setKey_ne _ _ _ (by decide), lookupKey_setKey_ne _ _ _ (by decide),
      lookupKey_setKey_ne _ _ _ (by decide)]
    exact lookupKey_setKey_self _ _ _
  · rw [lookupKey_setKey_ne _ _ _ (by decide), lookupKey_setKey_ne _ _ _ (by decide)]
    exact lookupKey_setKey_self _ _ _
  · rw [lookupKey_setKey_ne _ _ _ (by decide)]
    exact lookupKey_setKey_self _ _ _
  · exact lookupKey_setKey_self _ _ _

/-- Claim C5, witness: the frame property at a concrete map with an unknown
key. -/
theorem claim5_nls_frame_witness :
    ("other.key" ∉ nlsKnownKeys) ∧
    lookupKey "other.key" (applyNls brandingSample nlsSample) =
      lookupKey "other.key" nlsSample ∧
    lookupKey "extension.displayName" (applyNls brandingSample nlsSample) =
      some brandingSample.displayName :=
  ⟨by decide,
    (claim5_nls_frame brandingSample nlsSample "other.key" (by decide)).1,
    (claim5_nls_frame brandingSample nlsSample "other.key" (by decide)).2.1⟩

/-- Claim C6: an absolute icon source path is used as-is — independently of
what exists on disk — while a relative path resolves to the rebranding
directory join when that exists and to the project-root join otherwise. -/
theorem claim6_icon_resolution (ex ex2 : String → Bool)
    (rebrandingDir rootDir p : String) :
    (isAbsolutePath p = true →
      resolveIconSource ex rebrandingDir rootDir p = p ∧
      resolveIconSource ex rebrandingDir rootDir p =
        resolveIconSource ex2 rebrandingDir rootDir p) ∧
    (isAbsolutePath p = false → ex (pathJoin rebrandingDir p) = true →
      resolveIconSource ex rebrandingDir rootDir p = pathJoin rebrandingDir p) ∧
    (isAbsolutePath p = false → ex (pathJoin rebrandingDir p) = false →
      resolveIconSource ex rebrandingDir rootDir p = pathJoin rootDir p) := by
  refine ⟨fun h => ?_, fun h hex => ?_, fun h hex => ?_⟩
  · constructor <;> simp [resolveIconSource, h]
  · simp [resolveIconSource, h, hex]
  · simp [resolveIconSource, h, hex]

/-- Claim C6, witness: the fallback at a concrete relative path with an
oracle under which the first-resolved path does not exist. -/
theorem claim6_icon_resolution_witness :
    (isAbsolutePath "rel.png" = false ∧
      exNone (pathJoin "rebranding" "rel.png") = false) ∧
    resolveIconSource exNone "rebranding" "root" "rel.png" =
      pathJoin "root" "rel.png" :=
  ⟨⟨by decide, rfl⟩,
    (claim6_icon_resolution exNone exNone "rebranding" "root" "rel.png").2.2
      (by decide) rfl⟩

/-- Claim C7: the icon loop processes pairs in input order and decomposes
per-pair — so a failed pair never affects later ones; a pair with an empty
source is skipped silently, a pair whose resolved source does not exist
produces exactly a warning, and a pair whose resolved source exists produces
exactly a copy into the destination directory. -/
theorem claim7_icon_isolation (ex : String → Bool)
    (rebrandingDir rootDir iconsDir : String)
    (xs ys : List (String × String)) (d s : String) :
    processIcons ex rebrandingDir rootDir iconsDir (xs ++ ys) =
      processIcons ex rebrandingDir rootDir iconsDir xs ++
        processIcons ex rebrandingDir rootDir iconsDir ys ∧
    processIcons ex rebrandingDir rootDir iconsDir [(d, "")] = [] ∧
    (s ≠ "" → ex (resolveIconSource ex rebrandingDir rootDir s) = false →
      processIcons ex rebrandingDir rootDir iconsDir [(d, s)] =
        [IconEvent.warned (resolveIconSource ex rebrandingDir rootDir s)]) ∧
    (s ≠ "" → ex (resolveIconSource ex rebrandingDir rootDir s) = true →
      processIcons ex rebrandingDir rootDir iconsDir [(d, s)] =
        [IconEvent.copied (pathJoin iconsDir d)
          (resolveIconSource ex rebrandingDir rootDir s)]) := by
  refine ⟨?_, ?_, fun hs hex => ?_, fun hs hex => ?_⟩
  · induction xs with
    | nil => rfl
    | cons pair rest ih =>
      simp only [List.cons_append, processIcons, List.append_eq, ih,
        List.append_assoc]
  · simp [processIcons, processIconPair]
  · simp [processIcons, processIconPair, hs, hex]
  · simp [processIcons, processIconPair, hs, hex]

/-- Claim C7, witness: a missing source pair followed by an existing one —
the failed pair warns, the later pair is still copied. -/
theorem claim7_icon_isolation_witness :
    ("missing.png" ≠ "" ∧
      exSample (resolveIconSource exSample "rebranding" "root" "missing.png") = false ∧
      "ok.png" ≠ "" ∧
      exSample (resolveIconSource exSample "rebranding" "root" "ok.png") = true) ∧
    processIcons exSample "rebranding" "root" "icons"
        ([("a.png", "missing.png")] ++ [("b.png", "ok.png")]) =
      processIcons exSample "rebranding" "root" "icons" [("a.png", "missing.png")] ++
        processIcons exSample "rebranding" "root" "icons" [("b.png", "ok.png")] ∧
    processIcons exSample "rebranding" "root" "icons" [("a.png", "missing.png")] =
      [IconEvent.warned (resolveIconSource exSample "rebranding" "root" "missing.png")] ∧
    processIcons exSample "rebranding" "root" "icons" [("b.png", "ok.png")] =
      [IconEvent.copied (pathJoin "icons" "b.png")
        (resolveIconSource exSample "rebranding" "root" "ok.png")] :=
  ⟨⟨by decide, by decide, by decide, by decide⟩,
    (claim7_icon_isolation exSample "rebranding" "root" "icons"
      [("a.png", "missing.png")] [("b.png", "ok.png")] "a.png" "missing.png").1,
    (claim7_icon_isolation exSample "rebranding" "root" "icons"
      [("a.png", "missing.png")] [("b.png", "ok.png")] "a.png" "missing.png").2.2.1
      (by decide) (by decide),
    (claim7_icon_isolation exSample "rebranding" "root" "icons"
      [("a.png", "missing.png")] [("b.png", "ok.png")] "b.png" "ok.png").2.2.2
      (by decide) (by decide)⟩

/-- Claim C8, amended: without an explicit `shortName`, the derived short name
is the first token of `displayName` split on the **space character** (not on
general whitespace): it equals that first token when the token is non-empty
and the full `displayName` otherwise; in particular every `displayName`
containing no space character is its own short name. -/
theorem claim8_short_name (dN : List Char) :
    (' ' ∉ dN → deriveShortName none dN = dN) ∧
    (firstSpaceToken dN ≠ [] → deriveShortName none dN = firstSpaceToken dN) ∧
    (firstSpaceToken dN = [] → deriveShortName none dN = dN) := by
  refine ⟨fun h => ?_, fun h => ?_, fun h => ?_⟩
  · have hs : firstSpaceToken dN = dN := by
      rw [firstSpaceToken, splitOnSpaceChar_of_no_space dN h]
    by_cases hd : dN = []
    · subst hd
      decide
    · simp [deriveShortName, hs, hd]
  · simp [deriveShortName, h]
  · simp [deriveShortName, h]

/-- Claim C8, witness: a space-free display name is its own derived short
name. -/
theorem claim8_short_name_witness :
    (' ' ∉ "Jack".data) ∧ deriveShortName none "Jack".data = "Jack".data :=
  ⟨by decide, (claim8_short_name "Jack".data).1 (by decide)⟩

/-- Claim C8, counterexample to the original statement: the code splits on
`" "` only, so for `displayName = "Jack\tAssistant"` (tab-separated) the
derived short name is the whole string, while the first whitespace-delimited
token of the spec's wording is `"Jack"`. -/
theorem claim8_counterexample :
    deriveShortName none "Jack\tAssistant".data = "Jack\tAssistant".data ∧
    specFirstWhitespaceToken "Jack\tAssistant".data = "Jack".data ∧
    deriveShortName none "Jack\tAssistant".data ≠
      specFirstWhitespaceToken "Jack\tAssistant".data := by
  refine ⟨?_, ?_, ?_⟩ <;> decide

/-- Claim C9, amended: a missing configuration document exits the process
with status 1 after a diagnostic; a manifest that fails to parse after
substitution throws, so no later stage executes and the exception reaches the
top-level rejection handler, which prints it — after which the process exits
with status **0** (the handled rejection leaves the default status), not a
non-zero status; a missing stage target is a non-fatal skip after which the
remaining stages still run, reported for the manifest and localization-map
targets but silent for the locale directory. -/
theorem claim9_error_flow (w : FsWorld) :
    (w.brandingExists = false →
      runPipeline w = RunOutcome.exitedEarly 1 ∧ exitCode (runPipeline w) = 1) ∧
    (w.brandingExists = true → w.brandingParseOk = true → w.packageExists = true →
      w.packageParseOk = false →
      runPipeline w = RunOutcome.rejected [] ∧ exitCode (runPipeline w) = 0) ∧
    (w.brandingExists = true → w.brandingParseOk = true → w.packageExists = false →
      w.nlsExists = true → w.nlsParseOk = true → w.hasIcons = true →
      w.localesDirExists = true →
      runPipeline w = RunOutcome.finished
        [StageEvent.packageSkipped, StageEvent.nlsUpdated,
         StageEvent.iconsProcessed, StageEvent.localesUpdated]) ∧
    (w.brandingExists = true → w.brandingParseOk = true → w.packageExists = true →
      w.packageParseOk = true → w.nlsExists = true → w.nlsParseOk = false →
      runPipeline w = RunOutcome.rejected [StageEvent.packageUpdated] ∧
        exitCode (runPipeline w) = 0) := by
  obtain ⟨b1, b2, b3, b4, b5, b6, b7, b8⟩ := w
  refine ⟨fun h1 => ?_, fun h1 h2 h3 h4 => ?_, fun h1 h2 h3 h4 h5 h6 h7 => ?_,
    fun h1 h2 h3 h4 h5 h6 => ?_⟩ <;>
    simp_all [runPipeline, exitCode]

/-- Claim C9, witness: the three behaviours at concrete worlds. -/
theorem claim9_error_flow_witness :
    runPipeline ⟨false, true, true, true, true, true, true, true⟩ =
      RunOutcome.exitedEarly 1 ∧
    exitCode (runPipeline ⟨false, true, true, true, true, true, true, true⟩) = 1 :=
  (claim9_error_flow ⟨false, true, true, true, true, true, true, true⟩).1 rfl

/-- Claim C9, counterexample to the original statement: when the manifest
fails to parse, the run aborts (no later stage) but — because line 180's
`.catch(console.error)` handles the rejection — the process exit status is 0,
not the claimed non-zero status; moreover a missing locale directory is
skipped without any report. -/
theorem claim9_counterexample :
    runPipeline ⟨true, true, true, false, true, true, true, true⟩ =
      RunOutcome.rejected [] ∧
    exitCode (runPipeline ⟨true, true, true, false, true, true, true, true⟩) = 0 ∧
    runPipeline ⟨true, true, true, true, true, true, true, false⟩ =
      RunOutcome.finished
        [StageEvent.packageUpdated, StageEvent.nlsUpdated,
         StageEvent.iconsProcessed, StageEvent.localesSkippedSilently] := by
  refine ⟨?_, ?_, ?_⟩ <;> decide

/-- Claim C10, amended: for every nonempty `shortName` sharing no character
with `"Kilo"`, the `"Kilo"` → shortName pass processes the text around an
embedded `"Kilocode"` independently and turns the occurrence itself into
`shortName ++ "code"`; its output contains no `"Kilo"` at all, hence no
`"Kilocode"`, so the third substitution is the identity on it.  Merely
requiring that `shortName` not contain the substring `"Kilo"` — as the
original claim does — is not enough (see the counterexample). -/
theorem claim10_kilo_steps (rep d p q s : List Char)
    (hne : rep ≠ []) (hchars : ∀ a ∈ rep, a ∉ kiloToken) :
    replaceAll kiloToken rep (p ++ (kilocodeToken ++ q)) =
      replaceAll kiloToken rep p ++ rep ++
        (codeTail ++ replaceAll kiloToken rep q) ∧
    containsSeq kiloToken (replaceAll kiloToken rep s) = false ∧
    containsSeq kilocodeToken (replaceAll kiloToken rep s) = false ∧
    replaceAll kilocodeToken d (replaceAll kiloToken rep s) =
      replaceAll kiloToken rep s := by
  have h2 := containsSeq_replaceAll kiloToken_ne_nil hne hchars s
  have hpre : isPrefixSeq kiloToken kilocodeToken = true := by decide
  have h3 : containsSeq kilocodeToken (replaceAll kiloToken rep s) = false := by
    by_contra hx
    rw [Bool.not_eq_false] at hx
    have hk := containsSeq_of_isPrefixSeq hpre _ hx
    rw [h2] at hk
    exact absurd hk (by simp)
  exact ⟨replaceAll_kilo_append rep p q, h2, h3,
    replaceAll_of_not_contains _ _ _ h3⟩

/-- Claim C10, witness: the decomposition and the dead third substitution at
the example short name `"Jack"`. -/
theorem claim10_kilo_steps_witness :
    ("Jack".data ≠ ([] : List Char) ∧ ∀ a ∈ "Jack".data, a ∉ kiloToken) ∧
    replaceAll kiloToken "Jack".data ("A ".data ++ (kilocodeToken ++ " B".data)) =
      replaceAll kiloToken "Jack".data "A ".data ++ "Jack".data ++
        (codeTail ++ replaceAll kiloToken "Jack".data " B".data) ∧
    containsSeq kiloToken
      (replaceAll kiloToken "Jack".data "Kilo KilocodeX".data) = false ∧
    replaceAll kilocodeToken "Jack Assistant".data
        (replaceAll kiloToken "Jack".data "Kilo KilocodeX".data) =
      replaceAll kiloToken "Jack".data "Kilo KilocodeX".data :=
  ⟨⟨by decide, by decide⟩,
    (claim10_kilo_steps "Jack".data "Jack Assistant".data "A ".data " B".data
      "Kilo KilocodeX".data (by decide) (by decide)).1,
    (claim10_kilo_steps "Jack".data "Jack Assistant".data "A ".data " B".data
      "Kilo KilocodeX".data (by decide) (by decide)).2.1,
    (claim10_kilo_steps "Jack".data "Jack Assistant".data "A ".data " B".data
      "Kilo KilocodeX".data (by decide) (by decide)).2.2.2⟩

/-- Claim C10, counterexample to the original statement: the short name
`"Kil"` does not contain the substring `"Kilo"`, yet on input `"Kiloocode"`
the second substitution produces exactly `"Kilocode"`, which the third
substitution then rewrites — so under the original hypothesis the third
substitution is not dead on text coming from the input. -/
theorem claim10_counterexample :
    containsSeq kiloToken "Kil".data = false ∧
    replaceAll kiloToken "Kil".data "Kiloocode".data = kilocodeToken ∧
    replaceAll kilocodeToken "Jack Assistant".data
        (replaceAll kiloToken "Kil".data "Kiloocode".data) ≠
      replaceAll kiloToken "Kil".data "Kiloocode".data := by
  refine ⟨?_, ?_, ?_⟩ <;> decide

end Rebranding
